import Mathlib

/-!
Shallow embedding of the xrays analysis engine.

The embedded code is the pure core of:
* `xrays/analysis/__init__.py` — `file_revision_information` (the Revision
  Record Builder's per-file loop) and `count_indentations` (the pure tail of
  the indentation metric, operating on the comment-stripped text produced by
  the external `cloc` collaborator);
* `xrays/dashboard/__init__.py` — `hotspots_figure` (we model the summary
  DataFrame it builds, not the plotly figure object), `compute_correlations`,
  `correlation_table_data` and `filter_data`.

Pandas DataFrames of per-(file, commit) records are modelled as
`List FileRevisionRecord`.  Pandas float semantics: the only non-finite value
that the modelled code can produce is the `NaN` arising from `0/0` when a
normalization maximum is zero (the numerator is then forced to be zero as
well, because the maximum dominates it); `Option` with `none` models that
non-finite result.  The float expression
`(ind / max_ind) * ((rev / max_rev) ** 0.5)` for urgency is kept in exact
form as the two dividend/divisor pairs `((ind, max_ind), (rev, max_rev))`,
interpreted in the theorems as the real number
`(ind / max_ind) * Real.sqrt (rev / max_rev)`.

`filter_data` uses `pandas.Series.str.contains`, i.e. `re.search`, with the
user-supplied pattern; the embedding models the literal (metacharacter-free)
fragment of that interface as substring containment, which coincides with
`re.search` on literal patterns — in particular the empty pattern matches
every string.
-/

/-- One row of the record table produced by the Builder: one per
(file, commit touching it). Field names follow the DataFrame columns of
`file_revision_information`. Timestamps are modelled as integers (their
order is all the engine uses). -/
structure FileRevisionRecord where
  file : String
  commit_filename : String
  commit : String
  author_date : Int
  commit_date : Int
  indentation : Nat
  lines_code : Nat
  lines_comment : Nat
deriving DecidableEq, Repr

/-- One row of the change-coupling table produced by
`correlation_table_data` (columns `file_x`, `file_y`, `commits`). -/
structure ChangeCouplingEdge where
  file_x : String
  file_y : String
  commits : Nat
deriving DecidableEq, Repr

/-- One row of the hotspot summary DataFrame built inside `hotspots_figure`.
`urgency = some ((a, b), (c, d))` encodes the float value
`(a / b) * sqrt (c / d)` (with `b`, `d` positive); `urgency = none` encodes
NaN (the pandas result of a `0/0` normalization). -/
structure FileHotspotSummary where
  file : String
  revisions : Nat
  lines_code : Nat
  indentation : Nat
  urgency : Option ((Nat × Nat) × (Nat × Nat))
deriving DecidableEq, Repr

/-! ### `filter_data` (dashboard): substring containment on `file` -/

/-- `listStarts pat l` is true when `pat` is an initial segment of `l`. -/
def listStarts : List Char → List Char → Bool
  | [], _ => true
  | _ :: _, [] => false
  | a :: as, b :: bs => a == b && listStarts as bs

/-- `strContainsSub pat l` is true when `pat` occurs contiguously in `l`;
this is `re.search` restricted to literal patterns. The empty pattern is
found in every string. -/
def strContainsSub (needle : List Char) : List Char → Bool
  | [] => listStarts needle []
  | b :: bs => listStarts needle (b :: bs) || strContainsSub needle bs

/-- `filter_data` from the dashboard module:
`data[data["file"].str.contains(file_regex)]`, modelled for literal
patterns. -/
def filter_data (data : List FileRevisionRecord) (file_regex : String) :
    List FileRevisionRecord :=
  data.filter (fun r => strContainsSub file_regex.toList r.file.toList)

/-! ### `compute_correlations` (dashboard) -/

/-- The row set of `data.merge(data, on="commit", how="inner")` projected to
`(file_x, file_y)`: one pair per ordered pair of records sharing a commit. -/
def mergedPairs (data : List FileRevisionRecord) : List (String × String) :=
  data.flatMap (fun r1 =>
    (data.filter (fun r2 => r2.commit == r1.commit)).map
      (fun r2 => (r1.file, r2.file)))

/-- Python code-point comparison of character lists: the strict lexicographic
order underlying `sorted` and pandas string sorts. -/
def charListLt : List Char → List Char → Bool
  | [], [] => false
  | [], _ :: _ => true
  | _ :: _, [] => false
  | a :: as, b :: bs =>
    if a < b then true else if b < a then false else charListLt as bs

/-- Python `x < y` on strings. -/
def strLtB (x y : String) : Bool := charListLt x.toList y.toList

/-- Python `x <= y` on strings (the complement of `y < x` in the total
code-point order). -/
def strLeB (x y : String) : Bool := !(charListLt y.toList x.toList)

/-- Ascending lexicographic order on `(file_x, file_y)` group keys, as used
by the pandas groupby key sort and `sort_values(["file_x", "file_y"])`. -/
def pairLeB (a b : String × String) : Bool :=
  strLtB a.1 b.1 || (a.1 == b.1 && strLeB a.2 b.2)

/-- `groupby(["file_x", "file_y"], as_index=False)["commit"].count()` applied
to the merged row set, with keys in ascending order (groupby sorts keys, and
the subsequent `sort_values(["file_x", "file_y"])` keeps that order):
one row per distinct key with the number of merged rows carrying it. -/
def pairCounts (data : List FileRevisionRecord) : List (String × String × Nat) :=
  (List.insertionSort (fun a b => pairLeB a b = true) (mergedPairs data).dedup).map
    (fun p => (p.1, p.2, (mergedPairs data).countP (fun q => q == p)))

/-- `compute_correlations`: the diagonal (`file_x == file_y`) is set to NaN,
and the cutoff filter `commit >= cutoff` then drops it (NaN compares false)
together with every pair counted fewer than `cutoff` times. -/
def compute_correlations (data : List FileRevisionRecord) (cutoff : Nat) :
    List ChangeCouplingEdge :=
  (pairCounts data).filterMap (fun t =>
    if t.1 = t.2.1 then none
    else if cutoff ≤ t.2.2 then some ⟨t.1, t.2.1, t.2.2⟩ else none)

/-! ### `correlation_table_data` (dashboard) -/

/-- The deduplication key `"-".join(sorted([file_x, file_y]))`. -/
def joinKey (x y : String) : String :=
  if strLeB x y then x ++ "-" ++ y else y ++ "-" ++ x

/-- `drop_duplicates(subset=["duplicates"])`: keep the first row bearing each
key, scanning in order; `seen` accumulates the keys already kept. -/
def dropDupBy (key : ChangeCouplingEdge → String) :
    List String → List ChangeCouplingEdge → List ChangeCouplingEdge
  | _, [] => []
  | seen, e :: rest =>
    if seen.contains (key e) then dropDupBy key seen rest
    else e :: dropDupBy key (key e :: seen) rest

/-- `sort_values(["commits", "file_x", "file_y"], ascending=False)`:
descending lexicographic order on the triple (so ties in `commits` are broken
by `file_x`, then `file_y`, both descending). -/
def corrLeB (a b : ChangeCouplingEdge) : Bool :=
  decide (b.commits < a.commits) ||
    (b.commits == a.commits &&
      (strLtB b.file_x a.file_x ||
        (b.file_x == a.file_x && strLeB b.file_y a.file_y)))

/-- `correlation_table_data`: compute correlations, drop the second
occurrence of every unordered pair, then sort all three columns descending. -/
def correlation_table_data (data : List FileRevisionRecord) (cutoff : Nat) :
    List ChangeCouplingEdge :=
  List.insertionSort (fun a b => corrLeB a b = true)
    (dropDupBy (fun e => joinKey e.file_x e.file_y) []
      (compute_correlations data cutoff))

/-! ### `hotspots_figure` (dashboard): the summary DataFrame -/

/-- The records of one `groupby("file")` group, in their original order. -/
def fileGroup (data : List FileRevisionRecord) (f : String) :
    List FileRevisionRecord :=
  data.filter (fun r => r.file == f)

/-- The distinct `file` values, in the ascending order produced by the pandas
groupby key sort. -/
def groupedFiles (data : List FileRevisionRecord) : List String :=
  List.insertionSort (fun a b => strLeB a b = true)
    (data.map (fun r => r.file)).dedup

/-- `groupby("file").agg({"commit": "count", "lines_code": "last",
"indentation": "last"})`: per file, the row count and the `lines_code` /
`indentation` values of the positionally last row of the group. -/
def hotspotsAgg (data : List FileRevisionRecord) :
    List (String × Nat × Nat × Nat) :=
  (groupedFiles data).map (fun f =>
    let grp := fileGroup data f
    (f, grp.length,
      ((grp.map (fun r => r.lines_code)).getLast?).getD 0,
      ((grp.map (fun r => r.indentation)).getLast?).getD 0))

/-- Maximum of a list of naturals (`Series.max`; the empty case never feeds a
division below because an empty aggregate has no rows to score). -/
def natMax (l : List Nat) : Nat := l.foldr max 0

/-- Pandas division of a column entry by the column maximum: NaN (`none`)
when the maximum is zero (the entry is then zero as well, so this is the
`0/0` case), otherwise the finite quotient kept in exact form as the
dividend/divisor pair, read as the real number `a / b`. -/
def pandas_div (a b : Nat) : Option (Nat × Nat) :=
  if b = 0 then none else some (a, b)

/-- The maximum of the `indentation` column of the aggregated (post-filter,
pre-cutoff) table. -/
def preMaxInd (data : List FileRevisionRecord) : Nat :=
  natMax ((hotspotsAgg data).map (fun t => t.2.2.2))

/-- The maximum of the `revisions` column of the aggregated (post-filter,
pre-cutoff) table. -/
def preMaxRev (data : List FileRevisionRecord) : Nat :=
  natMax ((hotspotsAgg data).map (fun t => t.2.1))

/-- The float product of the two normalized factors, with a NaN factor
propagated (`NaN * x` is NaN): finite factors are kept in exact form as the
pair of quotients standing for `(a / b) * sqrt (c / d)`. -/
def combine : Option (Nat × Nat) → Option (Nat × Nat) →
    Option ((Nat × Nat) × (Nat × Nat))
  | some q, some s => some (q, s)
  | _, _ => none

/-- The summary DataFrame built inside `hotspots_figure` (dashboard variant):
group by file, score
`urgency = (indentation / indentation.max()) * (revisions / revisions.max()) ** 0.5`
with the maxima taken before the cutoff, then keep rows with
`revisions >= cutoff`. `urgency = some (q, s)` stands for the float
`q * sqrt s`; `none` stands for NaN. -/
def hotspots_figure (data : List FileRevisionRecord) (cutoff : Nat) :
    List FileHotspotSummary :=
  ((hotspotsAgg data).map (fun t =>
    ({ file := t.1, revisions := t.2.1, lines_code := t.2.2.1,
       indentation := t.2.2.2,
       urgency := combine (pandas_div t.2.2.2 (preMaxInd data))
         (pandas_div t.2.1 (preMaxRev data)) } : FileHotspotSummary))).filter
    (fun h => cutoff ≤ h.revisions)

/-! ### Builder core (`xrays/analysis/__init__.py`) -/

/-- Python `str.isspace` restricted to the ASCII whitespace characters (the
snapshots the metric is specified over). -/
def pyIsSpace (c : Char) : Bool :=
  c == ' ' || c == '\t' || c == '\n' || c == '\r' ||
    c == '\x0b' || c == '\x0c'

/-- `str.replace("\t", 4 * " ")`: every tab becomes four spaces. -/
def expandTabs : List Char → List Char
  | [] => []
  | c :: cs =>
    if c == '\t' then ' ' :: ' ' :: ' ' :: ' ' :: expandTabs cs
    else c :: expandTabs cs

/-- A character at which Python `str.splitlines` breaks a line (ASCII range;
`\r\n` is treated as a single break by `pySplitlines` below). -/
def isLineBreak (c : Char) : Bool :=
  c == '\n' || c == '\r' || c == '\x0b' || c == '\x0c' ||
    c == '\x1c' || c == '\x1d' || c == '\x1e'

/-- Python `str.splitlines` (ASCII break set): a trailing break produces no
extra empty line, and `\r\n` counts as one break. -/
def pySplitlines : List Char → List (List Char)
  | [] => []
  | '\r' :: '\n' :: rest => [] :: pySplitlines rest
  | c :: rest =>
    if isLineBreak c then [] :: pySplitlines rest
    else
      match pySplitlines rest with
      | [] => [[c]]
      | l :: ls => (c :: l) :: ls

/-- The pure tail of `count_indentations` in `xrays/analysis/__init__.py`,
applied to the comment-stripped text that the external `cloc` call produced:
replace tabs by four spaces, split into lines, and sum per line the length of
the run of leading whitespace (`itertools.takewhile(str.isspace, line)`). -/
def count_indentations (stripped : List Char) : Nat :=
  ((pySplitlines (expandTabs stripped)).map
    (fun line => (line.takeWhile pyIsSpace).length)).sum

/-- One parsed chunk of the `git log --format=format:%H %aI %cI --follow
--name-only` output: the commit id, both timestamps and the name the file
held at that commit. -/
structure LogEntry where
  commit : String
  author_date : Int
  commit_date : Int
  commit_filename : String
deriving DecidableEq, Repr

/-- The per-file loop of `file_revision_information` in
`xrays/analysis/__init__.py`. External collaborators are parameters:
`snapshot commit name` models
`repo.commit(commit).tree[name].data_stream.read()`, `strip` models the
comment-stripping `cloc` pass feeding `count_indentations`, and `countl`
models the line/comment counting `cloc` pass (`count_lines`). One record per
log entry, metrics computed from that entry's own snapshot. -/
def file_revision_information (file : String) (history : List LogEntry)
    (snapshot : String → String → List Char)
    (strip : List Char → List Char)
    (countl : List Char → Nat × Nat) : List FileRevisionRecord :=
  history.map (fun e =>
    let contents := snapshot e.commit e.commit_filename
    { file := file, commit_filename := e.commit_filename, commit := e.commit,
      author_date := e.author_date, commit_date := e.commit_date,
      indentation := count_indentations (strip contents),
      lines_code := (countl contents).1,
      lines_comment := (countl contents).2 })

/-! ### Spec-side definitions (worded from the spec, for comparison) -/

/-- Modelled from the spec (§4.3 steps 2–3): the number of distinct commits
whose deduplicated file set contains both `a` and `b`. -/
def specCommits (data : List FileRevisionRecord) (a b : String) : Nat :=
  ((data.map (fun r => r.commit)).dedup.filter (fun c =>
    (data.any (fun r => r.commit == c && r.file == a)) &&
      (data.any (fun r => r.commit == c && r.file == b)))).length

/-- Modelled from the spec (§4.2 step 3): the record with the most recent
`commit_date` among a group (ties resolved towards the earlier record, a
case the comparisons below never depend on). -/
def latestByCommitDate : List FileRevisionRecord → Option FileRevisionRecord
  | [] => none
  | r :: rs =>
    match latestByCommitDate rs with
    | none => some r
    | some s => if s.commit_date < r.commit_date then some r else some s

/-- Modelled from the spec (§4.2 step 2): the number of distinct `commit`
values in a group of records. -/
def distinctCommits (grp : List FileRevisionRecord) : Nat :=
  (grp.map (fun r => r.commit)).dedup.length

/-- Modelled from the spec (claim C10's wording): the count of leading
whitespace characters of a line. -/
def leadingWsCount : List Char → Nat
  | [] => 0
  | c :: cs => if pyIsSpace c then leadingWsCount cs + 1 else 0

/-- Records without the fields the aggregators ignore, for concrete
datasets. -/
def mkRec (file commit : String) (cdate : Int) (ind lc : Nat) :
    FileRevisionRecord :=
  { file := file, commit_filename := file, commit := commit,
    author_date := cdate, commit_date := cdate, indentation := ind,
    lines_code := lc, lines_comment := 0 }

/-- The number of records of file `x` inside commit `c`. -/
def occ (data : List FileRevisionRecord) (x c : String) : Nat :=
  data.countP (fun r => r.file == x && r.commit == c)

/-- Files `a` and `b` are touched together in commits `c1`, `c2`, `c3`,
and `a` alone in `c4` (the concrete scenario of the spec's §8 property). -/
def c1data : List FileRevisionRecord :=
  [mkRec "a" "c1" 1 5 5, mkRec "b" "c1" 1 6 6,
   mkRec "a" "c2" 2 5 5, mkRec "b" "c2" 2 6 6,
   mkRec "a" "c3" 3 5 5, mkRec "b" "c3" 3 6 6,
   mkRec "a" "c4" 4 5 5]

/-- File `a` carries two records of the same commit `c` (a duplicated
(file, commit) pair), and `b` one record of that commit. -/
def c1dup : List FileRevisionRecord :=
  [mkRec "a" "c" 1 5 5, mkRec "a" "c" 1 5 5, mkRec "b" "c" 1 6 6]

/-- One commit touching `a` and `b`, another touching `c` and `d`: two
coupling edges with the same count. -/
def c8data : List FileRevisionRecord :=
  [mkRec "a" "c1" 1 5 5, mkRec "b" "c1" 1 6 6,
   mkRec "c" "c2" 2 5 5, mkRec "d" "c2" 2 6 6]

/-- File `a` with two commits; the first record is the most recent by
`commit_date`, the last record the oldest. -/
def c3data : List FileRevisionRecord :=
  [mkRec "a" "c1" 5 7 10, mkRec "a" "c2" 3 9 20]

/-- Two files with zero indentation everywhere. -/
def c5data : List FileRevisionRecord :=
  [mkRec "a" "c1" 1 0 3, mkRec "b" "c2" 2 0 4]

/-- File `a` with two records of the same commit `c`. -/
def c6data : List FileRevisionRecord :=
  [mkRec "a" "c" 1 5 5, mkRec "a" "c" 1 5 5]

/-- Two distinct files sharing one commit. -/
def c9data : List FileRevisionRecord :=
  [mkRec "a.py" "c1" 1 2 3, mkRec "b.py" "c1" 1 2 3]

/-- File `a` maximizes neither column, file `b` both. -/
def c4data : List FileRevisionRecord :=
  [mkRec "a" "c1" 1 6 10, mkRec "b" "c2" 2 12 5, mkRec "b" "c3" 3 12 5]

/-- The hotspot row of file `a` in `hotspots_figure c4data 0`. -/
def c4row : FileHotspotSummary :=
  { file := "a", revisions := 1, lines_code := 10, indentation := 6,
    urgency := some ((6, 12), (1, 2)) }

/-- A two-commit history of one file. -/
def c7history : List LogEntry :=
  [{ commit := "c1", author_date := 1, commit_date := 1, commit_filename := "f" },
   { commit := "c2", author_date := 2, commit_date := 2, commit_filename := "f" }]

/-- Snapshots that differ between the two commits of `c7history`. -/
def c7snapshot (c : String) (_name : String) : List Char :=
  if c == "c1" then [' ', ' ', ' ', 'x'] else ['y']

/-! ## Helper lemmas -/

theorem strContainsSub_nil (hay : List Char) : strContainsSub [] hay = true := by
  cases hay <;> rfl

theorem combine_none_left (y : Option (Nat × Nat)) : combine none y = none := by
  cases y <;> rfl

theorem takeWhile_length_eq_leadingWsCount (l : List Char) :
    (l.takeWhile pyIsSpace).length = leadingWsCount l := by
  induction l with
  | nil => rfl
  | cons c cs ih =>
    by_cases h : pyIsSpace c = true
    · simp [List.takeWhile_cons, h, leadingWsCount, ih]
    · simp [List.takeWhile_cons, h, leadingWsCount]

theorem natMax_cons (a : Nat) (l : List Nat) :
    natMax (a :: l) = max a (natMax l) := rfl

theorem le_natMax_of_mem {l : List Nat} {a : Nat} (h : a ∈ l) : a ≤ natMax l := by
  induction l with
  | nil => cases h
  | cons b l ih =>
    rw [natMax_cons]
    rcases List.mem_cons.mp h with rfl | h'
    · exact le_max_left _ _
    · exact le_trans (ih h') (le_max_right _ _)

theorem mem_groupedFiles {data : List FileRevisionRecord} {f : String} :
    f ∈ groupedFiles data ↔ ∃ r ∈ data, r.file = f := by
  unfold groupedFiles
  rw [List.Perm.mem_iff (List.perm_insertionSort _ _), List.mem_dedup]
  exact List.mem_map

theorem fileGroup_ne_nil {data : List FileRevisionRecord} {f : String}
    (hf : f ∈ groupedFiles data) : fileGroup data f ≠ [] := by
  rcases mem_groupedFiles.mp hf with ⟨r, hr, hrf⟩
  have hmem : r ∈ fileGroup data f := by
    unfold fileGroup
    exact List.mem_filter.mpr ⟨hr, by simp [hrf]⟩
  intro hnil
  rw [hnil] at hmem
  exact absurd hmem (List.not_mem_nil r)

theorem mem_hotspots_figure {data : List FileRevisionRecord} {cutoff : Nat}
    {h : FileHotspotSummary} (hmem : h ∈ hotspots_figure data cutoff) :
    ∃ f ∈ groupedFiles data,
      h = { file := f, revisions := (fileGroup data f).length,
            lines_code :=
              ((fileGroup data f).map (fun r => r.lines_code)).getLast?.getD 0,
            indentation :=
              ((fileGroup data f).map (fun r => r.indentation)).getLast?.getD 0,
            urgency := combine
              (pandas_div
                (((fileGroup data f).map (fun r => r.indentation)).getLast?.getD 0)
                (preMaxInd data))
              (pandas_div ((fileGroup data f).length) (preMaxRev data)) } ∧
      cutoff ≤ (fileGroup data f).length := by
  unfold hotspots_figure at hmem
  rcases List.mem_filter.mp hmem with ⟨hmap, hcut⟩
  rcases List.mem_map.mp hmap with ⟨t, ht, rfl⟩
  unfold hotspotsAgg at ht
  rcases List.mem_map.mp ht with ⟨f, hf, rfl⟩
  refine ⟨f, hf, rfl, ?_⟩
  simpa using hcut

theorem one_le_preMaxRev {data : List FileRevisionRecord} {f : String}
    (hf : f ∈ groupedFiles data) : 1 ≤ preMaxRev data := by
  have h1 : 1 ≤ (fileGroup data f).length :=
    List.length_pos.mpr (fileGroup_ne_nil hf)
  have h2 : (fileGroup data f).length ∈ (hotspotsAgg data).map (fun t => t.2.1) := by
    unfold hotspotsAgg
    rw [List.map_map]
    exact List.mem_map.mpr ⟨f, hf, rfl⟩
  exact le_trans h1 (le_natMax_of_mem h2)

/-! ## Claim C10 -/

/-- Claim C10: for every comment-stripped snapshot text, the indentation
metric equals the sum over all lines of the count of leading whitespace
characters after each tab is replaced by four spaces; a line consisting
entirely of whitespace contributes its full expanded length, and a
zero-length line contributes zero. -/
theorem C10_indentation_sum :
    ∀ stripped : List Char,
      count_indentations stripped =
        ((pySplitlines (expandTabs stripped)).map leadingWsCount).sum ∧
      (∀ line : List Char, (∀ c ∈ line, pyIsSpace c = true) →
        leadingWsCount line = line.length) ∧
      leadingWsCount [] = 0 := by
  intro stripped
  refine ⟨?_, ?_, rfl⟩
  · unfold count_indentations
    simp only [takeWhile_length_eq_leadingWsCount]
  · intro line h
    induction line with
    | nil => rfl
    | cons c cs ih =>
      have hc := h c (by simp)
      have hcs := ih (fun x hx => h x (by simp [hx]))
      simp [leadingWsCount, hc, hcs]

theorem C10_witness :
    count_indentations (' ' :: ' ' :: 'x' :: []) =
      ((pySplitlines (expandTabs (' ' :: ' ' :: 'x' :: []))).map
        leadingWsCount).sum ∧
    leadingWsCount (' ' :: ' ' :: []) = (' ' :: ' ' :: []).length :=
  ⟨(C10_indentation_sum (' ' :: ' ' :: 'x' :: [])).1,
   (C10_indentation_sum []).2.1 (' ' :: ' ' :: []) (by decide)⟩

/-! ## Claim C7 -/

/-- Claim C7: for every kept file and every commit in its history, the
builder computes `indentation`, `lines_code` and `lines_comment` from the
byte snapshot of the file as it existed at that commit, so records of
different commits with different snapshot contents carry different metric
values (witnessed concretely by the two-commit history `c7history`). -/
theorem C7_metrics_per_commit_snapshot :
    (∀ (file : String) (history : List LogEntry)
        (snapshot : String → String → List Char)
        (strip : List Char → List Char) (countl : List Char → Nat × Nat),
      (file_revision_information file history snapshot strip countl).map
          (fun r => (r.commit, r.indentation, r.lines_code, r.lines_comment)) =
        history.map (fun e =>
          (e.commit,
            count_indentations (strip (snapshot e.commit e.commit_filename)),
            (countl (snapshot e.commit e.commit_filename)).1,
            (countl (snapshot e.commit e.commit_filename)).2))) ∧
    ((file_revision_information "f" c7history c7snapshot id
        (fun cs => (cs.length, 0))).map (fun r => r.indentation) = [3, 0] ∧
      (3 : Nat) ≠ 0) := by
  refine ⟨?_, by decide, by decide⟩
  intro file history snapshot strip countl
  simp only [file_revision_information, List.map_map]
  rfl

/-! ## Claim C9 -/

/-- Claim C9 counterexample: the empty filter string matches every record
(Python `re.search("", s)` always succeeds), so filtering `c9data` by `""`
keeps all records and both aggregations produce non-empty output. -/
theorem C9_counterexample :
    filter_data c9data "" = c9data ∧
    hotspots_figure (filter_data c9data "") 0 ≠ [] ∧
    correlation_table_data (filter_data c9data "") 0 ≠ [] := by decide

/-- Claim C9 (amended): a path filter matching no record yields an empty
hotspot summary and an empty coupling table rather than an error; the empty
filter string, however, matches every record and so returns the data
unchanged. -/
theorem C9_no_match_empty_output :
    ∀ (data : List FileRevisionRecord) (pat : String) (cutoff : Nat),
      (filter_data data pat = [] →
        hotspots_figure (filter_data data pat) cutoff = [] ∧
        correlation_table_data (filter_data data pat) cutoff = []) ∧
      filter_data data "" = data := by
  intro data pat cutoff
  constructor
  · intro h
    rw [h]
    exact ⟨rfl, rfl⟩
  · unfold filter_data
    exact List.filter_eq_self.mpr (fun r _ => strContainsSub_nil r.file.toList)

theorem C9_witness :
    hotspots_figure (filter_data c9data "zzz") 0 = [] ∧
    correlation_table_data (filter_data c9data "zzz") 0 = [] :=
  (C9_no_match_empty_output c9data "zzz" 0).1 (by decide)

/-! ## Claim C5 -/

/-- Claim C5 counterexample: with zero indentation throughout, the pandas
normalization divides `0` by a maximum of `0`, yielding NaN (`none`), not
the value zero the claim states. -/
theorem C5_counterexample :
    (hotspots_figure c5data 0).map (fun h => h.urgency) = [none, none] ∧
    (none : Option ((Nat × Nat) × (Nat × Nat))) ≠ some ((0, 1), (0, 1)) := by
  decide

/-- Claim C5 (amended): when the maximum indentation over the pre-cutoff
set is zero, every surviving file's urgency is the NaN value (`none`), not
zero; the aggregation still completes without error. -/
theorem C5_nan_urgency :
    ∀ (data : List FileRevisionRecord) (cutoff : Nat),
      preMaxInd data = 0 →
      ∀ h ∈ hotspots_figure data cutoff, h.urgency = none := by
  intro data cutoff hmax h hmem
  rcases mem_hotspots_figure hmem with ⟨f, _, rfl, _⟩
  show combine
      (pandas_div (((fileGroup data f).map (fun r => r.indentation)).getLast?.getD 0)
        (preMaxInd data))
      (pandas_div ((fileGroup data f).length) (preMaxRev data)) = none
  rw [hmax]
  exact combine_none_left _

theorem C5_witness :
    (FileHotspotSummary.mk "a" 1 3 0 none).urgency = none :=
  C5_nan_urgency c5data 0 (by decide)
    (FileHotspotSummary.mk "a" 1 3 0 none) (by decide)

/-! ## Claim C3 -/

/-- Claim C3 counterexample: for `c3data` the positionally first record of
file `a` is the most recent by `commit_date` (values `(10, 7)`), but the
summary row carries the values `(20, 9)` of the positionally last record,
which is the older one. -/
theorem C3_counterexample :
    (hotspots_figure c3data 0).map (fun h => (h.lines_code, h.indentation)) =
      [(20, 9)] ∧
    (latestByCommitDate (fileGroup c3data "a")).map
      (fun r => (r.lines_code, r.indentation)) = some (10, 7) ∧
    ((20, 9) : Nat × Nat) ≠ (10, 7) := by decide

/-- Claim C3 (amended): the hotspot summary row of a file takes its
`lines_code` and `indentation` from the positionally last record of that
file's filtered records (pandas `agg "last"`), regardless of
`commit_date`. -/
theorem C3_representative_is_last_row :
    ∀ (data : List FileRevisionRecord) (cutoff : Nat),
      ∀ h ∈ hotspots_figure data cutoff,
        ∃ r, (fileGroup data h.file).getLast? = some r ∧
          h.lines_code = r.lines_code ∧ h.indentation = r.indentation := by
  intro data cutoff h hmem
  rcases mem_hotspots_figure hmem with ⟨f, hf, rfl, _⟩
  obtain ⟨r, hr⟩ : ∃ r, (fileGroup data f).getLast? = some r := by
    cases hlast : (fileGroup data f).getLast? with
    | none => exact absurd (List.getLast?_eq_none_iff.mp hlast) (fileGroup_ne_nil hf)
    | some r => exact ⟨r, rfl⟩
  refine ⟨r, hr, ?_, ?_⟩
  · show ((fileGroup data f).map (fun r => r.lines_code)).getLast?.getD 0 =
      r.lines_code
    rw [List.getLast?_map, hr]
    rfl
  · show ((fileGroup data f).map (fun r => r.indentation)).getLast?.getD 0 =
      r.indentation
    rw [List.getLast?_map, hr]
    rfl

theorem C3_witness :
    ∃ r, (fileGroup c3data
        (FileHotspotSummary.mk "a" 2 20 9 (some ((9, 9), (2, 2)))).file).getLast? =
        some r ∧
      (FileHotspotSummary.mk "a" 2 20 9 (some ((9, 9), (2, 2)))).lines_code =
        r.lines_code ∧
      (FileHotspotSummary.mk "a" 2 20 9 (some ((9, 9), (2, 2)))).indentation =
        r.indentation :=
  C3_representative_is_last_row c3data 0
    (FileHotspotSummary.mk "a" 2 20 9 (some ((9, 9), (2, 2)))) (by decide)

/-! ## Claim C6 -/

/-- Claim C6 counterexample: with two records of the same `(file, commit)`
pair, the summary's `revisions` is the row count `2`, while the number of
distinct commit identifiers is `1`. -/
theorem C6_counterexample :
    (hotspots_figure c6data 0).map (fun h => h.revisions) = [2] ∧
    distinctCommits (fileGroup c6data "a") = 1 ∧ (2 : Nat) ≠ 1 := by decide

/-- Claim C6 (amended): `revisions` is the row count of the file's records
(pandas `agg "count"`); under the Builder invariant that no `(file, commit)`
pair repeats, this coincides with the number of distinct commit
identifiers. -/
theorem C6_revisions_are_row_counts :
    ∀ (data : List FileRevisionRecord) (cutoff : Nat),
      List.Pairwise
        (fun r1 r2 => ¬(r1.file = r2.file ∧ r1.commit = r2.commit)) data →
      ∀ h ∈ hotspots_figure data cutoff,
        h.revisions = (fileGroup data h.file).length ∧
        h.revisions = distinctCommits (fileGroup data h.file) := by
  intro data cutoff hnd h hmem
  rcases mem_hotspots_figure hmem with ⟨f, _, rfl, _⟩
  refine ⟨rfl, ?_⟩
  show (fileGroup data f).length = distinctCommits (fileGroup data f)
  unfold distinctCommits
  have hsub : List.Pairwise
      (fun r1 r2 => ¬(r1.file = r2.file ∧ r1.commit = r2.commit))
      (fileGroup data f) :=
    hnd.sublist (List.filter_sublist _)
  have hcomm : List.Pairwise (fun r1 r2 => r1.commit ≠ r2.commit)
      (fileGroup data f) := by
    refine List.Pairwise.imp_of_mem ?_ hsub
    intro a b ha hb hR hc
    have hfa : a.file = f := by
      have := (List.mem_filter.mp ha).2
      simpa using this
    have hfb : b.file = f := by
      have := (List.mem_filter.mp hb).2
      simpa using this
    exact hR ⟨hfa.trans hfb.symm, hc⟩
  have hnd2 : ((fileGroup data f).map (fun r => r.commit)).Nodup :=
    List.pairwise_map.mpr hcomm
  rw [List.dedup_eq_self.mpr hnd2, List.length_map]

theorem C6_witness :
    (FileHotspotSummary.mk "a" 2 20 9 (some ((9, 9), (2, 2)))).revisions =
      (fileGroup c3data
        (FileHotspotSummary.mk "a" 2 20 9 (some ((9, 9), (2, 2)))).file).length ∧
    (FileHotspotSummary.mk "a" 2 20 9 (some ((9, 9), (2, 2)))).revisions =
      distinctCommits (fileGroup c3data
        (FileHotspotSummary.mk "a" 2 20 9 (some ((9, 9), (2, 2)))).file) :=
  C6_revisions_are_row_counts c3data 0 (by decide)
    (FileHotspotSummary.mk "a" 2 20 9 (some ((9, 9), (2, 2)))) (by decide)

/-! ## Claim C4 -/

/-- Claim C4: the urgency of every surviving file is
`(indentation / max_indentation) * sqrt (revisions / max_revisions)`, with
both maxima taken over the post-filter, pre-cutoff aggregate (`preMaxInd`,
`preMaxRev`): the cutoff only filters rows afterwards, so files it removes
still contribute to the maxima. `urgency = some ((a, b), (c, d))` encodes
the real number `(a / b) * sqrt (c / d)`. -/
theorem C4_urgency_normalization :
    ∀ (data : List FileRevisionRecord) (cutoff : Nat),
      hotspots_figure data cutoff =
        (hotspots_figure data 0).filter
          (fun h => decide (cutoff ≤ h.revisions)) ∧
      ∀ h ∈ hotspots_figure data cutoff, 0 < preMaxInd data →
        h.urgency = some ((h.indentation, preMaxInd data),
          (h.revisions, preMaxRev data)) ∧
        ∃ u, h.urgency = some u ∧
          ((u.1.1 : ℝ) / (u.1.2 : ℝ)) * Real.sqrt ((u.2.1 : ℝ) / (u.2.2 : ℝ)) =
            ((h.indentation : ℝ) / (preMaxInd data : ℝ)) *
              Real.sqrt ((h.revisions : ℝ) / (preMaxRev data : ℝ)) := by
  intro data cutoff
  constructor
  · unfold hotspots_figure
    rw [List.filter_filter]
    exact List.filter_congr (fun a _ => by simp)
  · intro h hmem hpos
    rcases mem_hotspots_figure hmem with ⟨f, hf, rfl, _⟩
    have hrev : 1 ≤ preMaxRev data := one_le_preMaxRev hf
    have hind0 : preMaxInd data ≠ 0 := by omega
    have hrev0 : preMaxRev data ≠ 0 := by omega
    have hs : combine
        (pandas_div
          (((fileGroup data f).map (fun r => r.indentation)).getLast?.getD 0)
          (preMaxInd data))
        (pandas_div ((fileGroup data f).length) (preMaxRev data)) =
        some (((((fileGroup data f).map
            (fun r => r.indentation)).getLast?.getD 0), preMaxInd data),
          ((fileGroup data f).length, preMaxRev data)) := by
      simp [pandas_div, combine, hind0, hrev0]
    exact ⟨hs, ⟨_, hs, rfl⟩⟩

theorem C4_witness :
    c4row.urgency = some ((c4row.indentation, preMaxInd c4data),
      (c4row.revisions, preMaxRev c4data)) ∧
    ∃ u, c4row.urgency = some u ∧
      ((u.1.1 : ℝ) / (u.1.2 : ℝ)) * Real.sqrt ((u.2.1 : ℝ) / (u.2.2 : ℝ)) =
        ((c4row.indentation : ℝ) / (preMaxInd c4data : ℝ)) *
          Real.sqrt ((c4row.revisions : ℝ) / (preMaxRev c4data : ℝ)) :=
  (C4_urgency_normalization c4data 0).2 c4row (by decide) (by decide)

/-! ## String comparison lemmas -/

theorem charListLt_irrefl : ∀ l : List Char, charListLt l l = false := by
  intro l
  induction l with
  | nil => rfl
  | cons a as ih => simp [charListLt, lt_irrefl, ih]

theorem charListLt_trans :
    ∀ x y z : List Char, charListLt x y = true → charListLt y z = true →
      charListLt x z = true := by
  intro x
  induction x with
  | nil =>
    intro y z hxy hyz
    cases z with
    | nil =>
      cases y with
      | nil => exact absurd hxy (by simp [charListLt])
      | cons b bs => exact absurd hyz (by simp [charListLt])
    | cons c cs => rfl
  | cons a as ih =>
    intro y z hxy hyz
    cases y with
    | nil => exact absurd hxy (by simp [charListLt])
    | cons b bs =>
      cases z with
      | nil => exact absurd hyz (by simp [charListLt])
      | cons c cs =>
        by_cases hab : a < b
        · by_cases hbc : b < c
          · simp [charListLt, lt_trans hab hbc]
          · by_cases hcb : c < b
            · simp [charListLt, hbc, hcb] at hyz
            · have hbc' : b = c :=
                le_antisymm (le_of_not_lt hcb) (le_of_not_lt hbc)
              subst hbc'
              simp [charListLt, hab]
        · by_cases hba : b < a
          · simp [charListLt, hab, hba] at hxy
          · have hab' : a = b :=
              le_antisymm (le_of_not_lt hba) (le_of_not_lt hab)
            subst hab'
            simp only [charListLt, lt_irrefl, if_false] at hxy
            by_cases hac : a < c
            · simp [charListLt, hac]
            · by_cases hca : c < a
              · simp [charListLt, hac, hca] at hyz
              · have : a = c :=
                  le_antisymm (le_of_not_lt hca) (le_of_not_lt hac)
                subst this
                simp only [charListLt, lt_irrefl, if_false] at hyz ⊢
                exact ih bs cs hxy hyz

theorem charListLt_asymm :
    ∀ x y : List Char, charListLt x y = true → charListLt y x = false := by
  intro x
  induction x with
  | nil =>
    intro y hxy
    cases y with
    | nil => exact absurd hxy (by simp [charListLt])
    | cons b bs => rfl
  | cons a as ih =>
    intro y hxy
    cases y with
    | nil => exact absurd hxy (by simp [charListLt])
    | cons b bs =>
      by_cases hab : a < b
      · simp [charListLt, hab, lt_asymm hab]
      · by_cases hba : b < a
        · simp [charListLt, hab, hba] at hxy
        · simp only [charListLt, hab, hba, if_false] at hxy ⊢
          exact ih bs hxy

theorem charListLt_eq_of_not :
    ∀ x y : List Char, charListLt x y = false → charListLt y x = false →
      x = y := by
  intro x
  induction x with
  | nil =>
    intro y hxy _
    cases y with
    | nil => rfl
    | cons b bs => exact absurd hxy (by simp [charListLt])
  | cons a as ih =>
    intro y hxy hyx
    cases y with
    | nil => exact absurd hyx (by simp [charListLt])
    | cons b bs =>
      by_cases hab : a < b
      · simp [charListLt, hab] at hxy
      · by_cases hba : b < a
        · simp [charListLt, hab, hba] at hxy hyx
        · have hab' : a = b :=
            le_antisymm (le_of_not_lt hba) (le_of_not_lt hab)
          subst hab'
          simp only [charListLt, lt_irrefl, if_false] at hxy hyx
          rw [ih bs hxy hyx]

theorem strLtB_trans {x y z : String} (h1 : strLtB x y = true)
    (h2 : strLtB y z = true) : strLtB x z = true :=
  charListLt_trans _ _ _ h1 h2

theorem strLtB_asymm {x y : String} (h : strLtB x y = true) :
    strLtB y x = false :=
  charListLt_asymm _ _ h

theorem str_eq_of_not_lt {x y : String} (h1 : strLtB x y = false)
    (h2 : strLtB y x = false) : x = y := by
  have := charListLt_eq_of_not _ _ h1 h2
  exact String.toList_inj.mp this

theorem strLeB_eq_not_lt (x y : String) : strLeB x y = !(strLtB y x) := rfl

theorem strLeB_total (x y : String) :
    strLeB x y = true ∨ strLeB y x = true := by
  rw [strLeB_eq_not_lt, strLeB_eq_not_lt]
  cases h : strLtB y x
  · exact Or.inl rfl
  · rw [strLtB_asymm h]
    exact Or.inr rfl

theorem strLeB_trans {x y z : String} (h1 : strLeB x y = true)
    (h2 : strLeB y z = true) : strLeB x z = true := by
  rw [strLeB_eq_not_lt] at h1 h2 ⊢
  rw [Bool.not_eq_true'] at h1 h2 ⊢
  cases hxy : strLtB x y
  · rw [str_eq_of_not_lt hxy h1]
    exact h2
  · cases hzx : strLtB z x
    · rfl
    · exact absurd (strLtB_trans hzx hxy) (by rw [h2]; simp)

theorem str_eq_of_le_le {x y : String} (h1 : strLeB x y = true)
    (h2 : strLeB y x = true) : x = y := by
  rw [strLeB_eq_not_lt, Bool.not_eq_true'] at h1 h2
  exact str_eq_of_not_lt h2 h1

theorem joinKey_swap (x y : String) : joinKey x y = joinKey y x := by
  unfold joinKey
  by_cases h1 : strLeB x y = true
  · rw [if_pos h1]
    by_cases h2 : strLeB y x = true
    · rw [if_pos h2, str_eq_of_le_le h1 h2]
    · rw [if_neg h2]
  · rw [if_neg h1]
    have h2 : strLeB y x = true := (strLeB_total x y).resolve_left h1
    rw [if_pos h2]

/-! ## Deduplication and membership lemmas -/

theorem mem_of_mem_dropDupBy (key : ChangeCouplingEdge → String) :
    ∀ (l : List ChangeCouplingEdge) (seen : List String)
      (e : ChangeCouplingEdge), e ∈ dropDupBy key seen l → e ∈ l := by
  intro l
  induction l with
  | nil =>
    intro seen e h
    simp [dropDupBy] at h
  | cons a l ih =>
    intro seen e h
    by_cases hc : seen.contains (key a) = true
    · simp only [dropDupBy, hc, if_true] at h
      exact List.mem_cons_of_mem a (ih seen e h)
    · simp only [dropDupBy, hc, if_false] at h
      rcases List.mem_cons.mp h with rfl | h'
      · exact List.mem_cons_self _ _
      · exact List.mem_cons_of_mem a (ih _ e h')

theorem not_seen_of_mem_dropDupBy (key : ChangeCouplingEdge → String) :
    ∀ (l : List ChangeCouplingEdge) (seen : List String)
      (e : ChangeCouplingEdge), e ∈ dropDupBy key seen l → key e ∉ seen := by
  intro l
  induction l with
  | nil =>
    intro seen e h
    simp [dropDupBy] at h
  | cons a l ih =>
    intro seen e h
    by_cases hc : seen.contains (key a) = true
    · simp only [dropDupBy, hc, if_true] at h
      exact ih seen e h
    · simp only [dropDupBy, hc, if_false] at h
      rcases List.mem_cons.mp h with rfl | h'
      · intro hk
        exact hc (List.elem_iff.mpr hk)
      · intro hk
        exact ih _ e h' (List.mem_cons_of_mem _ hk)

theorem pairwise_keys_dropDupBy (key : ChangeCouplingEdge → String) :
    ∀ (l : List ChangeCouplingEdge) (seen : List String),
      List.Pairwise (fun a b => key a ≠ key b) (dropDupBy key seen l) := by
  intro l
  induction l with
  | nil =>
    intro seen
    simp [dropDupBy]
  | cons a l ih =>
    intro seen
    by_cases hc : seen.contains (key a) = true
    · simp only [dropDupBy, hc, if_true]
      exact ih seen
    · simp only [dropDupBy, hc, if_false]
      refine List.Pairwise.cons ?_ (ih _)
      intro b hb hk
      exact not_seen_of_mem_dropDupBy key l _ b hb (hk ▸ List.mem_cons_self _ _)

theorem mem_compute_correlations {data : List FileRevisionRecord}
    {cutoff : Nat} {e : ChangeCouplingEdge}
    (h : e ∈ compute_correlations data cutoff) :
    e.file_x ≠ e.file_y ∧ cutoff ≤ e.commits ∧
      e.commits = (mergedPairs data).countP
        (fun q => q == (e.file_x, e.file_y)) := by
  unfold compute_correlations at h
  rcases List.mem_filterMap.mp h with ⟨t, ht, hfm⟩
  unfold pairCounts at ht
  rcases List.mem_map.mp ht with ⟨p, _, rfl⟩
  by_cases hdiag : p.1 = p.2
  · rw [if_pos hdiag] at hfm
    cases hfm
  · rw [if_neg hdiag] at hfm
    by_cases hcut : cutoff ≤ (mergedPairs data).countP (fun q => q == p)
    · rw [if_pos hcut] at hfm
      injection hfm with hfm
      subst hfm
      exact ⟨hdiag, hcut, rfl⟩
    · rw [if_neg hcut] at hfm
      cases hfm

theorem mem_correlation_table_data {data : List FileRevisionRecord}
    {cutoff : Nat} {e : ChangeCouplingEdge}
    (h : e ∈ correlation_table_data data cutoff) :
    e ∈ compute_correlations data cutoff := by
  unfold correlation_table_data at h
  have h2 := (List.perm_insertionSort
    (fun a b => corrLeB a b = true) _).mem_iff.mp h
  exact mem_of_mem_dropDupBy _ _ _ _ h2

/-! ## Claim C2 -/

/-- Claim C2: the coupling output never contains an edge with
`file_x = file_y`, and no unordered pair of files appears in two rows
(in particular never in both directions): the diagonal is removed before
the cutoff, and `drop_duplicates` on the order-insensitive key
`"-".join(sorted(pair))` keeps at most one row per unordered pair. -/
theorem C2_no_self_pairs_one_direction :
    ∀ (data : List FileRevisionRecord) (cutoff : Nat),
      (∀ e ∈ correlation_table_data data cutoff, e.file_x ≠ e.file_y) ∧
      List.Pairwise (fun e e' =>
        ¬(e'.file_x = e.file_x ∧ e'.file_y = e.file_y) ∧
        ¬(e'.file_x = e.file_y ∧ e'.file_y = e.file_x))
        (correlation_table_data data cutoff) := by
  intro data cutoff
  constructor
  · intro e he
    exact (mem_compute_correlations (mem_correlation_table_data he)).1
  · have hkeys : List.Pairwise
        (fun a b => joinKey a.file_x a.file_y ≠ joinKey b.file_x b.file_y)
        (dropDupBy (fun e => joinKey e.file_x e.file_y) []
          (compute_correlations data cutoff)) :=
      pairwise_keys_dropDupBy _ _ _
    have himp : List.Pairwise (fun e e' =>
        ¬(e'.file_x = e.file_x ∧ e'.file_y = e.file_y) ∧
        ¬(e'.file_x = e.file_y ∧ e'.file_y = e.file_x))
        (dropDupBy (fun e => joinKey e.file_x e.file_y) []
          (compute_correlations data cutoff)) := by
      refine hkeys.imp ?_
      intro a b hk
      constructor
      · rintro ⟨h1, h2⟩
        exact hk (by rw [h1, h2])
      · rintro ⟨h1, h2⟩
        refine hk ?_
        rw [h1, h2]
        exact joinKey_swap a.file_x a.file_y
    have hsym : ∀ {x y : ChangeCouplingEdge},
        (¬(y.file_x = x.file_x ∧ y.file_y = x.file_y) ∧
          ¬(y.file_x = x.file_y ∧ y.file_y = x.file_x)) →
        (¬(x.file_x = y.file_x ∧ x.file_y = y.file_y) ∧
          ¬(x.file_x = y.file_y ∧ x.file_y = y.file_x)) := by
      intro x y hR
      constructor
      · rintro ⟨h1, h2⟩
        exact hR.1 ⟨h1.symm, h2.symm⟩
      · rintro ⟨h1, h2⟩
        exact hR.2 ⟨h2.symm, h1.symm⟩
    exact (List.Perm.pairwise_iff hsym
      (List.perm_insertionSort (fun a b => corrLeB a b = true) _)).mpr himp

theorem C2_witness :
    (ChangeCouplingEdge.mk "c" "d" 1).file_x ≠
      (ChangeCouplingEdge.mk "c" "d" 1).file_y :=
  (C2_no_self_pairs_one_direction c8data 1).1
    (ChangeCouplingEdge.mk "c" "d" 1) (by decide)

/-! ## Claim C8 -/

theorem corrLeB_iff (a b : ChangeCouplingEdge) :
    corrLeB a b = true ↔
      b.commits < a.commits ∨ (b.commits = a.commits ∧
        (strLtB b.file_x a.file_x = true ∨
          (b.file_x = a.file_x ∧ strLeB b.file_y a.file_y = true))) := by
  simp [corrLeB, Bool.or_eq_true, Bool.and_eq_true, decide_eq_true_eq,
    beq_iff_eq]

theorem corrRel_total :
    IsTotal ChangeCouplingEdge (fun a b => corrLeB a b = true) := by
  constructor
  intro a b
  rw [corrLeB_iff, corrLeB_iff]
  rcases Nat.lt_trichotomy a.commits b.commits with h | h | h
  · exact Or.inr (Or.inl h)
  · cases hx : strLtB a.file_x b.file_x
    · cases hx' : strLtB b.file_x a.file_x
      · have hxeq : b.file_x = a.file_x := str_eq_of_not_lt hx' hx
        rcases strLeB_total a.file_y b.file_y with hy | hy
        · exact Or.inr (Or.inr ⟨h, Or.inr ⟨hxeq.symm, hy⟩⟩)
        · exact Or.inl (Or.inr ⟨h.symm, Or.inr ⟨hxeq, hy⟩⟩)
      · exact Or.inl (Or.inr ⟨h.symm, Or.inl rfl⟩)
    · exact Or.inr (Or.inr ⟨h, Or.inl rfl⟩)
  · exact Or.inl (Or.inl h)

theorem corrRel_trans :
    IsTrans ChangeCouplingEdge (fun a b => corrLeB a b = true) := by
  constructor
  intro a b c hab hbc
  rw [corrLeB_iff] at hab hbc ⊢
  rcases hab with h1 | ⟨e1, t1⟩
  · rcases hbc with h2 | ⟨e2, _⟩
    · exact Or.inl (lt_trans h2 h1)
    · exact Or.inl (e2.trans_lt h1)
  · rcases hbc with h2 | ⟨e2, t2⟩
    · exact Or.inl (h2.trans_eq e1)
    · refine Or.inr ⟨e2.trans e1, ?_⟩
      rcases t1 with s1 | ⟨f1, s1⟩
      · rcases t2 with s2 | ⟨f2, s2⟩
        · exact Or.inl (strLtB_trans s2 s1)
        · exact Or.inl (f2 ▸ s1)
      · rcases t2 with s2 | ⟨f2, s2⟩
        · exact Or.inl (f1 ▸ s2)
        · exact Or.inr ⟨f2.trans f1, strLeB_trans s2 s1⟩

/-- Claim C8 counterexample: the two edges of `c8data` tie on `commits`,
and the code sorts `ascending=False` on all three keys, so `file_x` is tie
broken descending — `("c", "d")` comes before `("a", "b")` although
`"a" < "c"`, the opposite of the claimed ascending tie-break. -/
theorem C8_counterexample :
    correlation_table_data c8data 1 =
      [⟨"c", "d", 1⟩, ⟨"a", "b", 1⟩] ∧
    correlation_table_data c8data 1 ≠
      [⟨"a", "b", 1⟩, ⟨"c", "d", 1⟩] ∧
    strLtB "a" "c" = true := by decide

/-- Claim C8 (amended): the deduplicated coupling output is sorted by
`commits` descending, with ties broken by `(file_x, file_y)` in descending
(not ascending) lexicographic order. -/
theorem C8_descending_sort :
    ∀ (data : List FileRevisionRecord) (cutoff : Nat),
      List.Pairwise (fun a b =>
        b.commits < a.commits ∨ (b.commits = a.commits ∧
          (strLtB b.file_x a.file_x = true ∨
            (b.file_x = a.file_x ∧ strLeB b.file_y a.file_y = true))))
        (correlation_table_data data cutoff) := by
  intro data cutoff
  have hs : List.Sorted (fun a b => corrLeB a b = true)
      (correlation_table_data data cutoff) := by
    unfold correlation_table_data
    exact @List.sorted_insertionSort _ (fun a b => corrLeB a b = true) _
      corrRel_total corrRel_trans _
  exact List.Pairwise.imp (fun h => (corrLeB_iff _ _).mp h) hs

/-! ## Counting lemmas for the coupling bridge -/

theorem countP_flatMap_sum {α β : Type} (l : List α) (f : α → List β)
    (p : β → Bool) :
    (l.flatMap f).countP p = (l.map (fun a => (f a).countP p)).sum := by
  induction l with
  | nil => rfl
  | cons a l ih => simp [List.flatMap_cons, List.countP_append, ih]

theorem sum_map_add {α : Type} (l : List α) (f g : α → Nat) :
    (l.map (fun a => f a + g a)).sum = (l.map f).sum + (l.map g).sum := by
  induction l with
  | nil => rfl
  | cons a l ih =>
    simp only [List.map_cons, List.sum_cons, ih]
    omega

theorem sum_map_single {β : Type} [DecidableEq β] :
    ∀ (l : List β), l.Nodup → ∀ {c0 : β}, c0 ∈ l → ∀ (v : β → Nat),
      (l.map (fun c => if c = c0 then v c else 0)).sum = v c0 := by
  intro l
  induction l with
  | nil =>
    intro _ c0 hc0
    cases hc0
  | cons a l ih =>
    intro hnd c0 hc0 v
    rcases List.mem_cons.mp hc0 with rfl | h'
    · have hz : (l.map (fun c => if c = c0 then v c else 0)).sum = 0 := by
        apply List.sum_eq_zero
        intro x hx
        rcases List.mem_map.mp hx with ⟨c, hc, rfl⟩
        have hne : c ≠ c0 := fun hca => (List.nodup_cons.mp hnd).1 (hca ▸ hc)
        simp [hne]
      simp [hz]
    · have hne : a ≠ c0 := fun h => (List.nodup_cons.mp hnd).1 (h ▸ h')
      simp only [List.map_cons, List.sum_cons, if_neg hne]
      rw [ih (List.nodup_cons.mp hnd).2 h' v]
      omega

theorem sum_map_indicator {β : Type} (l : List β) (p : β → Bool) :
    (l.map (fun c => if p c = true then 1 else 0)).sum = l.countP p := by
  induction l with
  | nil => rfl
  | cons a l ih =>
    cases h : p a
    · simp [List.countP_cons, h, ih]
    · rw [List.map_cons, List.sum_cons, List.countP_cons, ih]
      simp only [h, if_true]
      omega

theorem sum_ite_file_eq (a : String) (g : String → Nat) :
    ∀ l : List FileRevisionRecord,
      (l.map (fun r => if r.file = a then g r.commit else 0)).sum =
        ((l.map (fun r => r.commit)).dedup.map
          (fun c => (l.countP (fun r => r.file == a && r.commit == c)) * g c)).sum := by
  intro l
  induction l with
  | nil => rfl
  | cons r l ih =>
    simp only [List.map_cons, List.sum_cons]
    by_cases hmem : r.commit ∈ l.map (fun r => r.commit)
    · rw [List.dedup_cons_of_mem hmem]
      have hstep : ∀ c ∈ (l.map (fun r => r.commit)).dedup,
          ((r :: l).countP (fun x => x.file == a && x.commit == c)) * g c =
            (l.countP (fun x => x.file == a && x.commit == c)) * g c +
              (if (r.file == a && r.commit == c) = true then 1 else 0) * g c := by
        intro c _
        rw [List.countP_cons, Nat.add_mul]
      rw [List.map_congr_left hstep, sum_map_add, ← ih]
      have hdelta : ((l.map (fun r => r.commit)).dedup.map
          (fun c => (if (r.file == a && r.commit == c) = true then 1 else 0) * g c)).sum =
          if r.file = a then g r.commit else 0 := by
        by_cases hfa : r.file = a
        · rw [if_pos hfa]
          have hpt : ∀ c ∈ (l.map (fun r => r.commit)).dedup,
              (if (r.file == a && r.commit == c) = true then 1 else 0) * g c =
                if c = r.commit then g c else 0 := by
            intro c _
            by_cases hc : c = r.commit
            · simp [hc, hfa]
            · have hcc : (r.commit == c) = false := by
                rw [beq_eq_false_iff_ne]
                exact fun h => hc h.symm
              simp [hcc, hc]
          rw [List.map_congr_left hpt]
          exact sum_map_single _ (List.nodup_dedup _)
            (List.mem_dedup.mpr hmem) g
        · rw [if_neg hfa]
          apply List.sum_eq_zero
          intro x hx
          rcases List.mem_map.mp hx with ⟨c, _, rfl⟩
          have : (r.file == a) = false := by simp [hfa]
          simp [this]
      rw [hdelta]
      omega
    · rw [List.dedup_cons_of_not_mem hmem]
      simp only [List.map_cons, List.sum_cons]
      have hhead : ((r :: l).countP
          (fun x => x.file == a && x.commit == r.commit)) * g r.commit =
          if r.file = a then g r.commit else 0 := by
        have hz : l.countP (fun x => x.file == a && x.commit == r.commit) = 0 := by
          apply List.countP_eq_zero.mpr
          intro x hx hpx
          simp only [Bool.and_eq_true, beq_iff_eq] at hpx
          exact hmem (hpx.2 ▸ List.mem_map.mpr ⟨x, hx, rfl⟩)
        rw [List.countP_cons, hz]
        by_cases hfa : r.file = a
        · simp [hfa]
        · simp [hfa]
      have hrest : ∀ c ∈ (l.map (fun r => r.commit)).dedup,
          ((r :: l).countP (fun x => x.file == a && x.commit == c)) * g c =
            (l.countP (fun x => x.file == a && x.commit == c)) * g c := by
        intro c hc
        have hcne : c ≠ r.commit := fun h => hmem (h ▸ List.mem_dedup.mp hc)
        have hne : (r.commit == c) = false := by
          rw [beq_eq_false_iff_ne]
          exact fun h => hcne h.symm
        rw [List.countP_cons]
        simp [hne]
      rw [hhead, List.map_congr_left hrest, ← ih]

theorem countP_le_one_of_pairwise {α : Type} {p : α → Bool} :
    ∀ {l : List α},
      List.Pairwise (fun x y => ¬(p x = true ∧ p y = true)) l →
      l.countP p ≤ 1 := by
  intro l
  induction l with
  | nil =>
    intro _
    simp
  | cons a l ih =>
    intro h
    rcases List.pairwise_cons.mp h with ⟨hhead, htail⟩
    by_cases ha : p a = true
    · have hz : l.countP p = 0 :=
        List.countP_eq_zero.mpr (fun x hx hpx => hhead x hx ⟨ha, hpx⟩)
      rw [List.countP_cons_of_pos _ _ ha, hz]
    · rw [List.countP_cons_of_neg _ _ ha]
      exact ih htail

theorem occ_le_one {data : List FileRevisionRecord}
    (hnd : List.Pairwise
      (fun r1 r2 => ¬(r1.file = r2.file ∧ r1.commit = r2.commit)) data)
    (x c : String) : occ data x c ≤ 1 := by
  apply countP_le_one_of_pairwise
  refine hnd.imp ?_
  intro r1 r2 hR hp
  rcases hp with ⟨h1, h2⟩
  simp only [Bool.and_eq_true, beq_iff_eq] at h1 h2
  exact hR ⟨h1.1.trans h2.1.symm, h1.2.trans h2.2.symm⟩

theorem occ_pos_iff {data : List FileRevisionRecord} {x c : String} :
    0 < occ data x c ↔ ∃ r ∈ data, r.file = x ∧ r.commit = c := by
  unfold occ
  rw [List.countP_pos_iff]
  simp [Bool.and_eq_true, beq_iff_eq]

theorem occ_eq_indicator {data : List FileRevisionRecord}
    (hnd : List.Pairwise
      (fun r1 r2 => ¬(r1.file = r2.file ∧ r1.commit = r2.commit)) data)
    (x c : String) :
    occ data x c =
      if (data.any (fun r => r.commit == c && r.file == x)) = true
      then 1 else 0 := by
  have hle := occ_le_one hnd x c
  by_cases h : data.any (fun r => r.commit == c && r.file == x) = true
  · rw [if_pos h]
    have hpos : 0 < occ data x c := by
      rw [occ_pos_iff]
      rcases List.any_eq_true.mp h with ⟨r, hr, hp⟩
      simp only [Bool.and_eq_true, beq_iff_eq] at hp
      exact ⟨r, hr, hp.2, hp.1⟩
    omega
  · rw [if_neg h]
    by_contra hne
    have hpos : 0 < occ data x c := Nat.pos_of_ne_zero hne
    rcases occ_pos_iff.mp hpos with ⟨r, hr, hx, hc⟩
    exact h (List.any_eq_true.mpr ⟨r, hr, by simp [hx, hc]⟩)

theorem pairCnt_eq_specCommits {data : List FileRevisionRecord}
    (hnd : List.Pairwise
      (fun r1 r2 => ¬(r1.file = r2.file ∧ r1.commit = r2.commit)) data)
    (a b : String) :
    (mergedPairs data).countP (fun q => q == (a, b)) = specCommits data a b := by
  unfold mergedPairs
  rw [countP_flatMap_sum]
  have hinner : ∀ r1 ∈ data,
      ((data.filter (fun r2 => r2.commit == r1.commit)).map
        (fun r2 => (r1.file, r2.file))).countP (fun q => q == (a, b)) =
      if r1.file = a then occ data b r1.commit else 0 := by
    intro r1 _
    rw [List.countP_map, List.countP_filter]
    by_cases hfa : r1.file = a
    · rw [if_pos hfa]
      unfold occ
      apply List.countP_congr
      intro r _
      show ((r1.file == a && r.file == b) && (r.commit == r1.commit)) = true ↔ _
      rw [hfa]
      simp only [beq_self_eq_true, Bool.true_and]
    · rw [if_neg hfa]
      apply List.countP_eq_zero.mpr
      intro r _
      show ¬((r1.file == a && r.file == b) && (r.commit == r1.commit)) = true
      have : (r1.file == a) = false := by simp [hfa]
      simp [this]
  rw [List.map_congr_left hinner, sum_ite_file_eq a (fun c => occ data b c) data]
  have hocc : ∀ c ∈ (data.map (fun r => r.commit)).dedup,
      (data.countP (fun r => r.file == a && r.commit == c)) * occ data b c =
      if ((data.any (fun r => r.commit == c && r.file == a)) &&
          (data.any (fun r => r.commit == c && r.file == b))) = true
      then 1 else 0 := by
    intro c _
    have h1 : data.countP (fun r => r.file == a && r.commit == c) = occ data a c := rfl
    rw [h1, occ_eq_indicator hnd a c, occ_eq_indicator hnd b c]
    by_cases ha : data.any (fun r => r.commit == c && r.file == a) = true <;>
      by_cases hb : data.any (fun r => r.commit == c && r.file == b) = true <;>
      simp [ha, hb]
  rw [List.map_congr_left hocc, sum_map_indicator, List.countP_eq_length_filter]
  rfl

/-! ## Claim C1 -/

/-- Claim C1 counterexample: with file `a` recorded twice in commit `c`
(a duplicated (file, commit) pair), the self-merge counts the row pairs
(`2`) instead of the one distinct commit containing both files, so the
coupling edge carries `commits = 2` while the spec's count is `1`. -/
theorem C1_counterexample :
    correlation_table_data c1dup 1 = [⟨"a", "b", 2⟩] ∧
    specCommits c1dup "a" "b" = 1 ∧ (2 : Nat) ≠ 1 := by decide

/-- Claim C1 (amended): for record sets with at most one record per
(file, commit) pair — the Builder invariant — every edge of the coupling
output counts exactly the distinct commits whose deduplicated file set
contains both files; in particular, for files `a`, `b` touched together in
commits `c1, c2, c3` and `a` alone in `c4`, the output is exactly the one
edge `(a, b)` with `commits = 3`, and `count_cutoff = 4` removes it. -/
theorem C1_coupling_commit_counts :
    ∀ (data : List FileRevisionRecord) (cutoff : Nat),
      (List.Pairwise
        (fun r1 r2 => ¬(r1.file = r2.file ∧ r1.commit = r2.commit)) data →
        ∀ e ∈ correlation_table_data data cutoff,
          e.commits = specCommits data e.file_x e.file_y) ∧
      correlation_table_data c1data 1 = [⟨"a", "b", 3⟩] ∧
      correlation_table_data c1data 4 = [] := by
  intro data cutoff
  refine ⟨?_, by decide, by decide⟩
  intro hnd e he
  have h := mem_compute_correlations (mem_correlation_table_data he)
  rw [h.2.2]
  exact pairCnt_eq_specCommits hnd e.file_x e.file_y

theorem C1_witness :
    (ChangeCouplingEdge.mk "a" "b" 3).commits =
      specCommits c1data (ChangeCouplingEdge.mk "a" "b" 3).file_x
        (ChangeCouplingEdge.mk "a" "b" 3).file_y :=
  (C1_coupling_commit_counts c1data 1).1 (by decide)
    (ChangeCouplingEdge.mk "a" "b" 3) (by decide)
